import Mathlib

/-!
AHK Script Manager: scan, cache and process table.

A shallow embedding of `src/mainwindow.cpp` (class `MainWindow`): the directory
scan `scanForScripts`, the tree of script entries with `handleScriptFound`,
`loadCache` / `saveCache`, and the process table `runningScripts` with
`runScriptForPath`, `runScript`, `stopScriptForPath`, `stopScript` and the
`finished` handler connected to every spawned `QProcess`.

Qt itself is not part of the repository.  What the code obtains from Qt is
either an input of the embedding (the directory iterator sequence, the plain
files of a directory, the result of `waitForStarted`, the parsed cache
document) or a small executable model of the documented Qt behaviour
(`QString::startsWith`, `QFileInfo::fileName`, the `*.ahk` name filter,
`QHash`).  Case folding is a parameter `fold : Char → Char`.
-/

namespace AhkManager

/-! ## Strings -/

/-- A `QString`, as a sequence of characters. -/
abbrev QString := String

/-- The call `s.startsWith(p, Qt::CaseInsensitive)`: the folded characters of
`p` are an initial segment of the folded characters of `s`. -/
def startsWith (fold : Char → Char) (s p : QString) : Bool :=
  (p.data.map fold).isPrefixOf (s.data.map fold)

/-- The call `s.endsWith(p, Qt::CaseInsensitive)`. -/
def endsWith (fold : Char → Char) (s p : QString) : Bool :=
  (p.data.map fold).isSuffixOf (s.data.map fold)

/-- The conversion `QDir::fromNativeSeparators` on Windows: every backslash
becomes a slash. -/
def fromNativeSeparators (s : QString) : QString :=
  ⟨s.data.map (fun c => if c = '\\' then '/' else c)⟩

/-- The call `QFileInfo(p).fileName()` on Windows: the text after the last
separator; a path without separator whose second character is a colon loses
its drive part. -/
def fileName (p : QString) : QString :=
  let cs := (fromNativeSeparators p).data
  if cs.contains '/' then
    ⟨(cs.reverse.takeWhile (fun c => c != '/')).reverse⟩
  else if cs.length ≥ 2 ∧ cs.get? 1 = some ':' then
    ⟨cs.drop 2⟩
  else
    ⟨cs⟩

/-- The 32-bit `int` of the C++ code: the value of an integer after
conversion to `int`. -/
def toInt32 (n : Int) : Int :=
  (n + 2147483648) % 4294967296 - 2147483648

/-! ## The file system seen by the scan -/

/-- What the scan reads from the disk.  `subdirs` is the sequence of paths
returned by `QDirIterator("C:/", QDir::Dirs | QDir::NoDotAndDotDot,
QDirIterator::Subdirectories)`; `files d` are the names of the plain files of
directory `d`, in the order `QDir::entryList` reports them. -/
structure FileSystem where
  /-- Every directory below the root, recursively. -/
  subdirs : List QString
  /-- The plain files of a directory. -/
  files : QString → List QString

/-- The call `QDir(dirPath).entryList(QStringList() << "*.ahk", QDir::Files)`:
the plain files whose name matches the wildcard, which Qt compares without
regard to case. -/
def entryList (fold : Char → Char) (fs : FileSystem) (dirPath : QString) : List QString :=
  (fs.files dirPath).filter (fun name => endsWith fold name ".ahk")

/-- A file system is well formed when no directory is enumerated twice, no
directory lists a name twice and no file name holds a separator. -/
def FileSystem.WellFormed (fs : FileSystem) : Prop :=
  fs.subdirs.Nodup ∧
    ∀ d ∈ fs.subdirs, (fs.files d).Nodup ∧ ∀ f ∈ fs.files d, '/' ∉ f.data

/-! ## scanForScripts -/

/-- The signals emitted by `scanForScripts`. -/
inductive Signal where
  | scriptFound (folder : QString) (scriptPath : QString)
  | progressUpdate (current : Int) (total : Int)
  deriving DecidableEq, Repr

/-- The local `skipFolders` of `scanForScripts`. -/
def skipFolders : List QString :=
  ["C:/Windows",
   "C:/Program Files",
   "C:/Program Files (x86)",
   "C:/ProgramData",
   "C:/$Recycle.Bin",
   "C:/Users/All Users",
   "C:/System Volume Information"]

/-- The inner loop over `skipFolders`: the flag `skip` after the loop. -/
def skipLoop (fold : Char → Char) (dir : QString) : List QString → Bool
  | [] => false
  | folder :: rest => if startsWith fold dir folder then true else skipLoop fold dir rest

/-- The first loop of `scanForScripts`: the list `allDirs`. -/
def collectDirs (fold : Char → Char) : List QString → List QString
  | [] => []
  | dir :: rest =>
    if skipLoop fold dir skipFolders then collectDirs fold rest
    else dir :: collectDirs fold rest

/-- The loop over the files of one directory: the `scriptFound` signals it
emits. -/
def scanFiles (existingPaths : List QString) (dirPath : QString) : List QString → List Signal
  | [] => []
  | file :: rest =>
    let path := dirPath ++ "/" ++ file
    if existingPaths.contains path then scanFiles existingPaths dirPath rest
    else
      let folderName := fileName dirPath
      let folderName := if folderName.isEmpty then dirPath else folderName
      Signal.scriptFound folderName path :: scanFiles existingPaths dirPath rest

/-- The loop over `allDirs`, from the value `currentDir` of the counter: the
signals emitted, in order. -/
def scanDirs (fold : Char → Char) (fs : FileSystem) (existingPaths : List QString)
    (totalDirs : Int) : Int → List QString → List Signal
  | _, [] => []
  | currentDir, dirPath :: rest =>
    let files := entryList fold fs dirPath
    let found := scanFiles existingPaths dirPath files
    let currentDir := toInt32 (currentDir + 1)
    let progress :=
      if totalDirs > 0 then [Signal.progressUpdate currentDir totalDirs] else []
    found ++ progress ++ scanDirs fold fs existingPaths totalDirs currentDir rest

/-- The function `MainWindow::scanForScripts`: every signal it emits, in
order, for the member `existingPaths`. -/
def scanForScripts (fold : Char → Char) (fs : FileSystem) (existingPaths : List QString) :
    List Signal :=
  let allDirs := collectDirs fold fs.subdirs
  let totalDirs := toInt32 allDirs.length
  scanDirs fold fs existingPaths totalDirs 0 allDirs

/-- The discovery events among a sequence of signals: `(folder, scriptPath)`
of every `scriptFound`. -/
def discoveries : List Signal → List (QString × QString)
  | [] => []
  | Signal.scriptFound folder scriptPath :: rest => (folder, scriptPath) :: discoveries rest
  | Signal.progressUpdate _ _ :: rest => discoveries rest

/-- The progress events among a sequence of signals: `(current, total)` of
every `progressUpdate`. -/
def progressEvents : List Signal → List (Int × Int)
  | [] => []
  | Signal.scriptFound _ _ :: rest => progressEvents rest
  | Signal.progressUpdate current total :: rest => (current, total) :: progressEvents rest

/-- The example disk of the specification: `C:/Tools/util.ahk` and
`C:/Windows/System/boot.ahk`. -/
def exampleDisk : FileSystem where
  subdirs := ["C:/Tools", "C:/Windows", "C:/Windows/System"]
  files := fun d =>
    if d = "C:/Tools" then ["util.ahk"]
    else if d = "C:/Windows/System" then ["boot.ahk"]
    else []

/-! ## The tree of script entries -/

/-- The icons given to a script item. -/
inductive Icon where
  | fileIcon
  | redIcon
  | greenIcon
  deriving DecidableEq, Repr

/-- A script item of `scriptTree`: a child of a folder item.  `ptr` stands
for the address of the `QTreeWidgetItem`, `data` for its `Qt::UserRole` data
(the script path), which is also the `scriptPath` property of its two
buttons. -/
structure ScriptItem where
  ptr : Nat
  text0 : QString
  text1 : QString
  icon : Icon
  background : QString
  data : QString
  deriving DecidableEq, Repr

/-- A top-level item of `scriptTree`: a folder label and its script items. -/
structure FolderItem where
  text0 : QString
  children : List ScriptItem
  deriving DecidableEq, Repr

/-- The function `MainWindow::setItemRunning` on an item. -/
def setItemRunning (item : ScriptItem) : ScriptItem :=
  { item with text1 := "Running", icon := Icon.greenIcon, background := "#1f3d2b" }

/-- The function `MainWindow::setItemStopped` on an item. -/
def setItemStopped (item : ScriptItem) : ScriptItem :=
  { item with text1 := "Not Running", icon := Icon.redIcon, background := "#3d1f1f" }

/-- The branch of `runScriptForPath` taken when the process does not start:
`setText(1, "Failed")` and `setIcon(0, redIcon)`. -/
def setItemFailed (item : ScriptItem) : ScriptItem :=
  { item with text1 := "Failed", icon := Icon.redIcon }

/-- A write through an item pointer: `f` applied to the item at address
`ptr`. -/
def updateItem (ptr : Nat) (f : ScriptItem → ScriptItem) (tree : List FolderItem) :
    List FolderItem :=
  tree.map (fun top =>
    { top with children := top.children.map (fun c => if c.ptr = ptr then f c else c) })

/-- The loop of `recurse` in `findScriptItem` over the children of one
top-level item (script items have no children). -/
def findChild (path : QString) : List ScriptItem → Option ScriptItem
  | [] => none
  | child :: rest => if child.data = path then some child else findChild path rest

/-- The helper `findScriptItem`: the first script item whose data is `path`. -/
def findScriptItem : List FolderItem → QString → Option ScriptItem
  | [], _ => none
  | top :: rest, path =>
    match findChild path top.children with
    | some found => some found
    | none => findScriptItem rest path

/-- The tree part of `handleScriptFound`: the new item becomes the last child
of the first top-level item labelled `folder`, or of a new top-level item
appended to the tree when there is none. -/
def addToFolder (folder : QString) (item : ScriptItem) : List FolderItem → List FolderItem
  | [] => [{ text0 := folder, children := [item] }]
  | top :: rest =>
    if top.text0 = folder then { top with children := top.children ++ [item] } :: rest
    else top :: addToFolder folder item rest

/-- The script entries of a tree: the pair `(folder label, script path)` of
every script item. -/
def entries : List FolderItem → List (QString × QString)
  | [] => []
  | top :: rest => top.children.map (fun c => (top.text0, c.data)) ++ entries rest

/-- The script paths of a tree, one per script item. -/
def entryPaths (tree : List FolderItem) : List QString :=
  (entries tree).map Prod.snd

/-! ## The process table -/

/-- The member `runningScripts`, a `QHash<QString, QProcess*>`. -/
abbrev QHash := List (QString × Nat)

/-- The call `h.contains(k)`. -/
def QHash.contains (h : QHash) (k : QString) : Bool :=
  h.any (fun e => decide (e.1 = k))

/-- The call `h.remove(k)`. -/
def QHash.remove (h : QHash) (k : QString) : QHash :=
  h.filter (fun e => decide (e.1 ≠ k))

/-- The assignment `h[k] = v`: the one value under `k` is `v`. -/
def QHash.insert (h : QHash) (k : QString) (v : Nat) : QHash :=
  (k, v) :: QHash.remove h k

/-- The handles registered under a key. -/
def QHash.handles (h : QHash) (k : QString) : List Nat :=
  (h.filter (fun e => decide (e.1 = k))).map Prod.snd

/-- A `QProcess` object created by the window.  `ptr` stands for its address;
`path` and `item` are what the handler connected to `finished` captured;
`running` holds from a successful start until `finished` is emitted. -/
structure QProcess where
  ptr : Nat
  path : QString
  item : Nat
  running : Bool
  killed : Bool
  deleteLater : Bool
  deriving DecidableEq, Repr

/-- The state of the window that the core functions read and write. -/
structure MainWindow where
  scriptTree : List FolderItem
  runningScripts : QHash
  existingPaths : List QString
  processes : List QProcess
  nextPtr : Nat
  deriving DecidableEq, Repr

/-- A window with nothing in it. -/
def MainWindow.empty : MainWindow :=
  { scriptTree := [], runningScripts := [], existingPaths := [], processes := [], nextPtr := 0 }

/-- The slot `MainWindow::handleScriptFound`. -/
def handleScriptFound (folder scriptPath : QString) (w : MainWindow) : MainWindow :=
  let scriptItem : ScriptItem :=
    setItemStopped
      { ptr := w.nextPtr, text0 := fileName scriptPath, text1 := "Not Running",
        icon := Icon.fileIcon, background := "", data := scriptPath }
  { w with scriptTree := addToFolder folder scriptItem w.scriptTree, nextPtr := w.nextPtr + 1 }

/-- The return statement by which a start call ends (the C++ functions
return nothing). -/
inductive StartExit where
  | noSender
  | noItem
  | alreadyRunning
  | failed
  | started
  deriving DecidableEq, Repr

/-- The return statement by which a stop call ends. -/
inductive StopExit where
  | noSender
  | noItem
  | notRunning
  | killed
  deriving DecidableEq, Repr

/-- The function `MainWindow::runScriptForPath`; `waitForStarted` is the
result of `proc->waitForStarted(1000)`. -/
def runScriptForPath (waitForStarted : Bool) (path : QString) (w : MainWindow) :
    MainWindow × StartExit :=
  match findScriptItem w.scriptTree path with
  | none => (w, StartExit.noItem)
  | some item =>
    if w.runningScripts.contains path then (w, StartExit.alreadyRunning)
    else
      let proc : QProcess :=
        { ptr := w.nextPtr, path := path, item := item.ptr,
          running := waitForStarted, killed := false, deleteLater := false }
      if !waitForStarted then
        ({ w with
            scriptTree := updateItem item.ptr setItemFailed w.scriptTree,
            processes := w.processes ++ [{ proc with deleteLater := true }],
            nextPtr := w.nextPtr + 1 },
          StartExit.failed)
      else
        ({ w with
            scriptTree := updateItem item.ptr setItemRunning w.scriptTree,
            runningScripts := w.runningScripts.insert path proc.ptr,
            processes := w.processes ++ [proc],
            nextPtr := w.nextPtr + 1 },
          StartExit.started)

/-- The slot `MainWindow::runScript`; `sender` is the `scriptPath` property
of the button that sent the signal, `none` when the sender is no button. -/
def runScript (waitForStarted : Bool) (sender : Option QString) (w : MainWindow) :
    MainWindow × StartExit :=
  match sender with
  | none => (w, StartExit.noSender)
  | some path =>
    match findScriptItem w.scriptTree path with
    | none => (w, StartExit.noItem)
    | some item =>
      if w.runningScripts.contains path then (w, StartExit.alreadyRunning)
      else
        let proc : QProcess :=
          { ptr := w.nextPtr, path := path, item := item.ptr,
            running := waitForStarted, killed := false, deleteLater := false }
        if !waitForStarted then
          ({ w with
              scriptTree := updateItem item.ptr setItemFailed w.scriptTree,
              processes := w.processes ++ [{ proc with deleteLater := true }],
              nextPtr := w.nextPtr + 1 },
            StartExit.failed)
        else
          ({ w with
              scriptTree := updateItem item.ptr setItemRunning w.scriptTree,
              runningScripts := w.runningScripts.insert path proc.ptr,
              processes := w.processes ++ [proc],
              nextPtr := w.nextPtr + 1 },
            StartExit.started)

/-- The calls `runningScripts[path]->kill()` and `->deleteLater()`: on every
process registered under `path`. -/
def killHandles (h : QHash) (path : QString) (procs : List QProcess) : List QProcess :=
  procs.map (fun p =>
    if p.ptr ∈ h.handles path then { p with killed := true, deleteLater := true } else p)

/-- The function `MainWindow::stopScriptForPath`. -/
def stopScriptForPath (path : QString) (w : MainWindow) : MainWindow × StopExit :=
  if !w.runningScripts.contains path then (w, StopExit.notRunning)
  else
    let tree :=
      match findScriptItem w.scriptTree path with
      | some item => updateItem item.ptr setItemStopped w.scriptTree
      | none => w.scriptTree
    ({ w with
        scriptTree := tree,
        processes := killHandles w.runningScripts path w.processes,
        runningScripts := w.runningScripts.remove path },
      StopExit.killed)

/-- The slot `MainWindow::stopScript`; `sender` as for `runScript`. -/
def stopScript (sender : Option QString) (w : MainWindow) : MainWindow × StopExit :=
  match sender with
  | none => (w, StopExit.noSender)
  | some path =>
    match findScriptItem w.scriptTree path with
    | none => (w, StopExit.noItem)
    | some item =>
      if w.runningScripts.contains path then
        ({ w with
            processes := killHandles w.runningScripts path w.processes,
            runningScripts := w.runningScripts.remove path,
            scriptTree := updateItem item.ptr setItemStopped w.scriptTree },
          StopExit.killed)
      else (w, StopExit.notRunning)

/-- The handler connected to `QProcess::finished` in `runScriptForPath` and
`runScript`, run when process object `proc` emits the signal: `none` when
`proc` has no exit to report. -/
def processFinished (proc : Nat) (w : MainWindow) : Option MainWindow :=
  match w.processes.find? (fun p => decide (p.ptr = proc) && p.running) with
  | none => none
  | some p =>
    some { w with
      scriptTree := updateItem p.item setItemStopped w.scriptTree,
      runningScripts := w.runningScripts.remove p.path,
      processes := w.processes.map (fun q =>
        if q.ptr = proc then { q with running := false, deleteLater := true } else q) }

/-- The action `Delete from List` of `showContextMenu` on the item at address
`ptr`: the menu is offered for an item whose data is not empty, and
`delete item` takes the item out of the tree. -/
def deleteFromList (ptr : Nat) (w : MainWindow) : MainWindow :=
  { w with scriptTree := w.scriptTree.map (fun top =>
      { top with children :=
          top.children.filter (fun c => !(decide (c.ptr = ptr) && !c.data.isEmpty)) }) }

/-! ## The cache file -/

/-- A JSON value as `QJsonValue` holds it. -/
inductive QJsonValue where
  | null
  | bool (b : Bool)
  | number (n : Int)
  | string (s : QString)
  | array (items : List QJsonValue)
  | object (members : List (QString × QJsonValue))

/-- The result of `QJsonDocument::fromJson`: a null document for text that is
empty or not JSON, else an array or an object. -/
inductive QJsonDocument where
  | null
  | array (items : List QJsonValue)
  | object (members : List (QString × QJsonValue))

/-- The cache file: `none` when the file does not exist, else the document
its content parses to.  `QJsonDocument::fromJson` is taken to read back the
document that `toJson` wrote. -/
abbrev CacheFile := Option QJsonDocument

/-- The call `val.toObject()`: the members of an object, none for any other
value. -/
def QJsonValue.toObject : QJsonValue → List (QString × QJsonValue)
  | QJsonValue.object members => members
  | _ => []

/-- The call `val.toString()`: the text of a string, empty for any other
value. -/
def QJsonValue.toQString : QJsonValue → QString
  | QJsonValue.string s => s
  | _ => ""

/-- The member access `obj[key]`: null when the key is absent. -/
def member (obj : List (QString × QJsonValue)) (key : QString) : QJsonValue :=
  (obj.lookup key).getD QJsonValue.null

/-- The body of the loop of `loadCache` for one array element. -/
def loadElement (w : MainWindow) (val : QJsonValue) : MainWindow :=
  let obj := val.toObject
  handleScriptFound (member obj "folder").toQString (member obj "path").toQString w

/-- The function `MainWindow::loadCache`; `canOpen` is the result of
`f.open(QIODevice::ReadOnly)`. -/
def loadCache (canOpen : Bool) (file : CacheFile) (w : MainWindow) : MainWindow :=
  match file with
  | none => w
  | some doc =>
    if canOpen then
      match doc with
      | QJsonDocument.array arr => arr.foldl loadElement { w with scriptTree := [] }
      | _ => w
    else w

/-- The inner loop of `saveCache`: one object per script item. -/
def saveChildren (folderText : QString) : List ScriptItem → List QJsonValue
  | [] => []
  | scriptItem :: rest =>
    QJsonValue.object
        [("folder", QJsonValue.string folderText), ("path", QJsonValue.string scriptItem.data)]
      :: saveChildren folderText rest

/-- The outer loop of `saveCache`: the array `arr`. -/
def saveFolders : List FolderItem → List QJsonValue
  | [] => []
  | folderItem :: rest => saveChildren folderItem.text0 folderItem.children ++ saveFolders rest

/-- The function `MainWindow::saveCache`; `canOpen` is the result of
`f.open(QIODevice::WriteOnly)`.  The result is the cache file afterwards. -/
def saveCache (canOpen : Bool) (w : MainWindow) (file : CacheFile) : CacheFile :=
  if canOpen then some (QJsonDocument.array (saveFolders w.scriptTree)) else file

/-! ## A scan, as the window sees it -/

/-- The slot `MainWindow::startScan`, up to the launch of the scan: the member
`existingPaths` is rebuilt from the tree. -/
def startScan (w : MainWindow) : MainWindow :=
  { w with existingPaths := entryPaths w.scriptTree }

/-- The delivery of one signal of the scan to its slot: `scriptFound` goes to
`handleScriptFound`; `progressUpdate` only moves the progress bar. -/
def deliver (w : MainWindow) : Signal → MainWindow
  | Signal.scriptFound folder scriptPath => handleScriptFound folder scriptPath w
  | Signal.progressUpdate _ _ => w

/-- A whole scan: `startScan`, then every signal of `scanForScripts` delivered
in order. -/
def runScan (fold : Char → Char) (fs : FileSystem) (w : MainWindow) : MainWindow :=
  (scanForScripts fold fs (startScan w).existingPaths).foldl deliver (startScan w)

/-- A disk with one directory `C:/Tools` holding two scripts and a text
file. -/
def toolsDisk : FileSystem where
  subdirs := ["C:/Tools"]
  files := fun d => if d = "C:/Tools" then ["a.ahk", "B.AHK", "notes.txt"] else []

/-- A disk with scripts, files that are no scripts, a subdirectory and an
excluded directory written in lower case. -/
def mixedDisk : FileSystem where
  subdirs := ["C:/Tools", "C:/Tools/Sub", "C:/windows/x", "C:/Users"]
  files := fun d =>
    if d = "C:/Tools" then ["a.ahk", "B.AHK", "notes.txt", "ahk", "x.ahk.bak"]
    else if d = "C:/Tools/Sub" then ["c.ahk"]
    else if d = "C:/windows/x" then ["w.ahk"]
    else if d = "C:/Users" then ["readme.md"]
    else []

/-! ## The scan in the words of the specification -/

/-- A directory is excluded when its path starts, without regard to case,
with one of the prefixes of `skipFolders`. -/
def isExcluded (fold : Char → Char) (d : QString) : Bool :=
  skipFolders.any (fun p => startsWith fold d p)

/-- The folder label of a directory: its last path component, or the whole
path when that component is empty. -/
def folderLabel (d : QString) : QString :=
  if (fileName d).isEmpty then d else fileName d

/-- The discovery events the specification asks for: for every enumerated
directory that is not excluded and every script file listed in it whose path
is not known, one event with the folder label and the path. -/
def expectedDiscoveries (fold : Char → Char) (fs : FileSystem) (knownPaths : List QString) :
    List (QString × QString) :=
  (fs.subdirs.filter (fun d => !isExcluded fold d)).flatMap (fun d =>
    ((entryList fold fs d).filter (fun f => !knownPaths.contains (d ++ "/" ++ f))).map
      (fun f => (folderLabel d, d ++ "/" ++ f)))

/-- Directory `sub` lies below directory `d`: its path is the path of `d`,
a separator, and more. -/
def isBelow (sub d : QString) : Bool :=
  (d.data ++ ['/']).isPrefixOf sub.data

/-! ## The records of the cache -/

/-- The record `loadCache` reads from an array element: the texts of its
members `folder` and `path`. -/
def recordOf (val : QJsonValue) : QString × QString :=
  ((member val.toObject "folder").toQString, (member val.toObject "path").toQString)

/-- A JSON value is a string. -/
def QJsonValue.isString : QJsonValue → Bool
  | QJsonValue.string _ => true
  | _ => false

/-- A JSON value is a record of the cache: an object with a string `folder`
and a string `path`. -/
def isRecord : QJsonValue → Bool
  | QJsonValue.object members =>
    ((members.lookup "folder").map QJsonValue.isString).getD false &&
      ((members.lookup "path").map QJsonValue.isString).getD false
  | _ => false

/-- The cache file holds a well-formed list of records. -/
def isRecordList : CacheFile → Bool
  | some (QJsonDocument.array arr) => arr.all isRecord
  | _ => false

/-- The paths `loadCache` reads from a cache file, one per array element. -/
def cachePaths : CacheFile → List QString
  | some (QJsonDocument.array arr) => arr.map (fun val => (recordOf val).2)
  | _ => []

/-- The states of the window reached from an empty tree by `loadCache` on a
cache file accepted by `cacheOk`, by a whole scan of a well-formed file
system, and by `Delete from List`. -/
inductive Reachable (fold : Char → Char) (cacheOk : CacheFile → Prop) : MainWindow → Prop where
  | init (w : MainWindow) : w.scriptTree = [] → Reachable fold cacheOk w
  | load (w : MainWindow) (canOpen : Bool) (file : CacheFile) :
      Reachable fold cacheOk w → cacheOk file → Reachable fold cacheOk (loadCache canOpen file w)
  | scan (w : MainWindow) (fs : FileSystem) :
      Reachable fold cacheOk w → fs.WellFormed → Reachable fold cacheOk (runScan fold fs w)
  | delete (w : MainWindow) (ptr : Nat) :
      Reachable fold cacheOk w → Reachable fold cacheOk (deleteFromList ptr w)

/-- A cache record with the given folder and path, as `saveCache` writes it. -/
def cacheRecord (folder path : QString) : QJsonValue :=
  QJsonValue.object [("folder", QJsonValue.string folder), ("path", QJsonValue.string path)]

/-! ## The process table as a step relation -/

/-- What can happen to the process table: a start call with the result of
`waitForStarted`, a stop call, and the `finished` signal of a process object. -/
inductive Action where
  | start (waitForStarted : Bool) (path : QString)
  | stop (path : QString)
  | finished (proc : Nat)
  deriving DecidableEq, Repr

/-- One step of the process table: `none` when the signal cannot occur. -/
def step (w : MainWindow) : Action → Option MainWindow
  | Action.start waitForStarted path => some (runScriptForPath waitForStarted path w).1
  | Action.stop path => some (stopScriptForPath path w).1
  | Action.finished proc => processFinished proc w

/-- A sequence of steps. -/
def run (w : MainWindow) : List Action → Option MainWindow
  | [] => some w
  | a :: rest =>
    match step w a with
    | none => none
    | some w1 => run w1 rest

/-- The window after a scan of the example disk: one entry, for
`C:/Tools/util.ahk`. -/
def exampleWindow : MainWindow :=
  runScan Char.toLower exampleDisk MainWindow.empty

/-- What the window shows and holds for a path: the handles registered under
it, the status text of its item, and for every process object whether its
process runs. -/
def observe (path : QString) (w : MainWindow) :
    List Nat × Option QString × List (Nat × Bool) :=
  (w.runningScripts.handles path,
    (findScriptItem w.scriptTree path).map (fun item => item.text1),
    w.processes.map (fun q => (q.ptr, q.running)))

/-! ## Lemmas on the scan -/

theorem skipLoop_eq_any (fold : Char → Char) (d : QString) (l : List QString) :
    skipLoop fold d l = l.any (fun p => startsWith fold d p) := by
  induction l with
  | nil => rfl
  | cons p rest ih =>
    simp only [skipLoop, List.any_cons, ih]
    cases startsWith fold d p <;> simp

theorem skipLoop_eq_isExcluded (fold : Char → Char) (d : QString) :
    skipLoop fold d skipFolders = isExcluded fold d :=
  skipLoop_eq_any fold d skipFolders

theorem collectDirs_eq_filter (fold : Char → Char) (dirs : List QString) :
    collectDirs fold dirs = dirs.filter (fun d => !isExcluded fold d) := by
  induction dirs with
  | nil => rfl
  | cons d rest ih =>
    simp only [collectDirs, skipLoop_eq_isExcluded, List.filter_cons, ih]
    cases isExcluded fold d <;> simp

theorem discoveries_append (a b : List Signal) :
    discoveries (a ++ b) = discoveries a ++ discoveries b := by
  induction a with
  | nil => rfl
  | cons x rest ih =>
    cases x <;> simp [discoveries, ih]

theorem progressEvents_append (a b : List Signal) :
    progressEvents (a ++ b) = progressEvents a ++ progressEvents b := by
  induction a with
  | nil => rfl
  | cons x rest ih =>
    cases x <;> simp [progressEvents, ih]

theorem discoveries_scanFiles (known : List QString) (d : QString) (files : List QString) :
    discoveries (scanFiles known d files) =
      (files.filter (fun f => !known.contains (d ++ "/" ++ f))).map
        (fun f => (folderLabel d, d ++ "/" ++ f)) := by
  induction files with
  | nil => rfl
  | cons f rest ih =>
    by_cases h : d ++ "/" ++ f ∈ known
    · simp [scanFiles, h, ih, List.filter_cons]
    · simp [scanFiles, h, ih, List.filter_cons, discoveries, folderLabel]

theorem progressEvents_scanFiles (known : List QString) (d : QString) (files : List QString) :
    progressEvents (scanFiles known d files) = [] := by
  induction files with
  | nil => rfl
  | cons f rest ih =>
    by_cases h : d ++ "/" ++ f ∈ known
    · simp [scanFiles, h, ih]
    · simp [scanFiles, h, ih, progressEvents]

theorem discoveries_scanDirs (fold : Char → Char) (fs : FileSystem) (known : List QString)
    (total : Int) (dirs : List QString) (current : Int) :
    discoveries (scanDirs fold fs known total current dirs) =
      dirs.flatMap (fun d =>
        ((entryList fold fs d).filter (fun f => !known.contains (d ++ "/" ++ f))).map
          (fun f => (folderLabel d, d ++ "/" ++ f))) := by
  induction dirs generalizing current with
  | nil => rfl
  | cons d rest ih =>
    simp only [scanDirs, discoveries_append, discoveries_scanFiles, ih, List.flatMap_cons]
    by_cases h : total > 0 <;> simp [h, discoveries]

theorem discoveries_scanForScripts (fold : Char → Char) (fs : FileSystem)
    (known : List QString) :
    discoveries (scanForScripts fold fs known) = expectedDiscoveries fold fs known := by
  simp only [scanForScripts, discoveries_scanDirs, collectDirs_eq_filter, expectedDiscoveries]

theorem mem_expectedDiscoveries {fold : Char → Char} {fs : FileSystem}
    {known : List QString} {ev : QString × QString} :
    ev ∈ expectedDiscoveries fold fs known ↔
      ∃ d ∈ fs.subdirs, isExcluded fold d = false ∧
        ∃ f ∈ entryList fold fs d, known.contains (d ++ "/" ++ f) = false ∧
          ev = (folderLabel d, d ++ "/" ++ f) := by
  simp only [expectedDiscoveries, List.mem_flatMap, List.mem_filter, List.mem_map,
    Bool.not_eq_true', Bool.not_eq_eq_eq_not, Bool.not_true]
  constructor
  · rintro ⟨d, ⟨hd, hex⟩, f, ⟨hf, hk⟩, rfl⟩
    exact ⟨d, hd, hex, f, hf, hk, rfl⟩
  · rintro ⟨d, hd, hex, f, hf, hk, rfl⟩
    exact ⟨d, ⟨hd, hex⟩, f, ⟨hf, hk⟩, rfl⟩

/-! ## Lemmas on strings -/

theorem startsWith_iff (fold : Char → Char) (s p : QString) :
    startsWith fold s p = true ↔ p.data.map fold <+: s.data.map fold := by
  simp [startsWith]

theorem startsWith_mono (fold : Char → Char) {s t p : QString}
    (h : startsWith fold s p = true) (hst : s.data <+: t.data) :
    startsWith fold t p = true := by
  rw [startsWith_iff] at h ⊢
  exact h.trans (hst.map fold)

theorem startsWith_of_shorter (fold : Char → Char) (s p : QString)
    (h : s.data.length < p.data.length) : startsWith fold s p = false := by
  cases hsp : startsWith fold s p with
  | false => rfl
  | true =>
    have hle := ((startsWith_iff fold s p).mp hsp).length_le
    simp only [List.length_map] at hle
    omega

theorem startsWith_append (fold : Char → Char) (p r : QString) :
    startsWith fold (p ++ r) p = true := by
  rw [startsWith_iff, String.data_append, List.map_append]
  exact List.prefix_append _ _

theorem endsWith_append (fold : Char → Char) (r p : QString) :
    endsWith fold (r ++ p) p = true := by
  simp only [endsWith, List.isSuffixOf_iff_suffix, String.data_append, List.map_append]
  exact List.suffix_append _ _

/-- Two paths `a/b` and `c/d` that are equal, where `b` holds no separator:
`c` is an initial segment of `a`. -/
theorem sep_split {a b c d : List Char} (h : a ++ '/' :: b = c ++ '/' :: d)
    (hb : '/' ∉ b) : c <+: a := by
  rcases List.append_eq_append_iff.mp h with ⟨x, hc, hx⟩ | ⟨x, ha, _⟩
  · cases x with
    | nil => simp at hc; exact hc ▸ List.prefix_refl _
    | cons y ys =>
      simp only [List.cons_append, List.cons.injEq] at hx
      exact absurd (hx.2 ▸ (by simp : '/' ∈ ys ++ '/' :: d)) hb
  · exact ⟨x, ha.symm⟩

/-- A path `a/b` determines `a` and `b` when `b` holds no separator. -/
theorem sep_unique {a b c d : List Char} (h : a ++ '/' :: b = c ++ '/' :: d)
    (hb : '/' ∉ b) (hd : '/' ∉ d) : a = c ∧ b = d := by
  have h1 := sep_split h hb
  have h2 := sep_split h.symm hd
  have hac : a = c := by
    have hl : a.length = c.length := Nat.le_antisymm h2.length_le h1.length_le
    exact (List.IsPrefix.eq_of_length h2 hl)
  subst hac
  simpa using h

theorem path_data (d f : QString) : (d ++ "/" ++ f).data = d.data ++ '/' :: f.data := by
  simp [String.data_append]

theorem path_unique {d f e g : QString} (h : d ++ "/" ++ f = e ++ "/" ++ g)
    (hf : '/' ∉ f.data) (hg : '/' ∉ g.data) : d = e ∧ f = g := by
  have h2 : (d ++ "/" ++ f).data = (e ++ "/" ++ g).data := by rw [h]
  rw [path_data, path_data] at h2
  obtain ⟨h3, h4⟩ := sep_unique h2 hf hg
  exact ⟨String.ext h3, String.ext h4⟩

/-- The file name of `parent/name` is `name` when `name` holds no separator:
`QFileInfo::fileName` is the last path component. -/
theorem fileName_path (parent name : QString) (h1 : '/' ∉ name.data)
    (h2 : '\\' ∉ name.data) : fileName (parent ++ "/" ++ name) = name := by
  have hmap : name.data.map (fun c => if c = '\\' then '/' else c) = name.data := by
    conv_rhs => rw [← List.map_id name.data]
    apply List.map_congr_left
    intro c hc
    have hne : c ≠ '\\' := fun h => h2 (h ▸ hc)
    simp [hne]
  have hcs : (fromNativeSeparators (parent ++ "/" ++ name)).data =
      parent.data.map (fun c => if c = '\\' then '/' else c) ++ '/' :: name.data := by
    simp only [fromNativeSeparators, path_data, List.map_append, List.map_cons, hmap]
    simp
  have htake : ∀ (l r : List Char), '/' ∉ l →
      (l ++ '/' :: r).takeWhile (fun c => c != '/') = l := by
    intro l r hl
    rw [List.takeWhile_append_of_pos (fun a ha => by
      have hne : a ≠ '/' := fun h => hl (h ▸ ha)
      simpa using hne)]
    simp
  unfold fileName
  simp only [hcs]
  have hcont : (parent.data.map (fun c => if c = '\\' then '/' else c) ++ '/' :: name.data).contains
      '/' = true := by simp
  rw [if_pos hcont]
  apply String.ext
  simp only [List.reverse_append, List.reverse_cons, List.append_assoc, List.singleton_append]
  rw [htake _ _ (by simpa using h1)]
  simp

theorem mem_entryList {fold : Char → Char} {fs : FileSystem} {d f : QString}
    (h : f ∈ entryList fold fs d) : f ∈ fs.files d :=
  (List.mem_filter.mp h).1

theorem toInt32_of_range {n : Int} (h0 : 0 ≤ n) (h1 : n < 2147483648) : toInt32 n = n := by
  unfold toInt32
  omega

theorem progressEvents_scanDirs (fold : Char → Char) (fs : FileSystem) (known : List QString)
    (total : Int) (htotal : total > 0) (dirs : List QString) (current : Int)
    (h0 : 0 ≤ current) (h1 : current + dirs.length < 2147483648) :
    progressEvents (scanDirs fold fs known total current dirs) =
      (List.range dirs.length).map (fun (i : Nat) => (current + 1 + (i : Int), total)) := by
  induction dirs generalizing current with
  | nil => rfl
  | cons d rest ih =>
    simp only [List.length_cons, Nat.cast_add, Nat.cast_one] at h1
    have hc : toInt32 (current + 1) = current + 1 := toInt32_of_range (by omega) (by omega)
    simp only [scanDirs, progressEvents_append, progressEvents_scanFiles, htotal, if_true,
      List.nil_append, hc, progressEvents, List.singleton_append, List.length_cons,
      List.range_succ_eq_map, List.map_cons, List.map_map]
    rw [ih (current + 1) (by omega) (by omega)]
    simp only [Nat.cast_zero, add_zero, List.cons.injEq, true_and]
    apply List.map_congr_left
    intro i _
    simp only [Function.comp, Nat.cast_succ, Prod.mk.injEq, and_true]
    omega

theorem progressEvents_scanForScripts (fold : Char → Char) (fs : FileSystem)
    (known : List QString) (hsize : (collectDirs fold fs.subdirs).length < 2147483648) :
    progressEvents (scanForScripts fold fs known) =
      (List.range (collectDirs fold fs.subdirs).length).map
        (fun (i : Nat) => ((i : Int) + 1, ((collectDirs fold fs.subdirs).length : Int))) := by
  simp only [scanForScripts]
  have ht : toInt32 ((collectDirs fold fs.subdirs).length : Int)
      = ((collectDirs fold fs.subdirs).length : Int) :=
    toInt32_of_range (by omega) (by omega)
  rw [ht]
  cases hdirs : collectDirs fold fs.subdirs with
  | nil => rfl
  | cons d rest =>
    rw [← hdirs, progressEvents_scanDirs fold fs known _ (by rw [hdirs]; simp) _ 0
      (le_refl 0) (by omega)]
    apply List.map_congr_left
    intro i _
    simp only [Prod.mk.injEq, and_true]
    omega

/-! ## The scan: claims -/

/-- Claim C1.  For every file system whose file names hold no separator, every
directory `d` whose path starts, without regard to case, with one of the
excluded prefixes, and every directory `sub` that is `d` or lies below `d`:
the scan emits no discovery event for a script `sub/f`, whatever the name `f`
and the label. -/
theorem excluded_directory_emits_nothing (fold : Char → Char) (fs : FileSystem)
    (knownPaths : List QString)
    (hnames : ∀ e ∈ fs.subdirs, ∀ g ∈ fs.files e, '/' ∉ g.data)
    (d sub f label : QString)
    (hd : ∃ p ∈ skipFolders, startsWith fold d p = true)
    (hsub : sub = d ∨ isBelow sub d = true) :
    (label, sub ++ "/" ++ f) ∉ discoveries (scanForScripts fold fs knownPaths) := by
  intro hmem
  rw [discoveries_scanForScripts, mem_expectedDiscoveries] at hmem
  obtain ⟨e, he, hex, g, hg, _, hev⟩ := hmem
  have hpath : sub ++ "/" ++ f = e ++ "/" ++ g := (Prod.mk.inj hev).2
  have hdata : (e ++ "/" ++ g).data = (sub ++ "/" ++ f).data := by rw [hpath]
  rw [path_data, path_data] at hdata
  have hsube : sub.data <+: e.data := sep_split hdata (hnames e he g (mem_entryList hg))
  have hdsub : d.data <+: sub.data := by
    rcases hsub with h | h
    · rw [h]
    · have h2 : d.data ++ ['/'] <+: sub.data := by
        simpa [isBelow] using h
      exact (List.prefix_append _ _).trans h2
  obtain ⟨p, hp, hstart⟩ := hd
  have hskip : isExcluded fold e = true := by
    simp only [isExcluded, List.any_eq_true]
    exact ⟨p, hp, startsWith_mono fold hstart (hdsub.trans hsube)⟩
  rw [hskip] at hex
  exact Bool.noConfusion hex

/-- Claim C1, on the example disk: `C:/Windows/System` lies below the excluded
`C:/Windows`, and its script `boot.ahk` is not reported. -/
theorem excluded_directory_emits_nothing_witness :
    ("System", "C:/Windows/System" ++ "/" ++ "boot.ahk") ∉
      discoveries (scanForScripts Char.toLower exampleDisk []) :=
  excluded_directory_emits_nothing Char.toLower exampleDisk []
    (by decide) "C:/Windows" "C:/Windows/System" "boot.ahk" "System"
    ⟨"C:/Windows", by decide, by decide⟩ (Or.inr (by decide))

/-- Claim C2.  The discovery events of a scan are, in order, exactly these:
for every enumerated directory `d` whose path does not start, without regard
to case, with a prefix of `skipFolders`, and every plain file `f` of `d` whose
name ends, without regard to case, in `.ahk` (a script file) and whose path
`d/f` is not known, one event `(label, d/f)`, with the label the file name of
`d`, or `d` itself when that name is empty; the file name of a path
`parent/name` is its last component `name`.  On the example disk with nothing
known the scan yields the one event `("Tools", "C:/Tools/util.ahk")`, whatever
the case folding.  On a disk that also holds files that are no scripts, a
known script and an excluded directory, only the unknown scripts of the
directories that are not excluded are reported. -/
theorem discoveries_exact :
    (∀ (fold : Char → Char) (fs : FileSystem) (knownPaths : List QString),
      discoveries (scanForScripts fold fs knownPaths) =
        (fs.subdirs.filter (fun d =>
            !skipFolders.any (fun p => (p.data.map fold).isPrefixOf (d.data.map fold)))).flatMap
          (fun d =>
            (((fs.files d).filter
                (fun f => (".ahk".data.map fold).isSuffixOf (f.data.map fold))).filter
              (fun f => !knownPaths.contains (d ++ "/" ++ f))).map
            (fun f => (if (fileName d).isEmpty then d else fileName d, d ++ "/" ++ f)))) ∧
    (∀ parent name : QString, '/' ∉ name.data → '\\' ∉ name.data →
      fileName (parent ++ "/" ++ name) = name) ∧
    (∀ fold : Char → Char,
      discoveries (scanForScripts fold exampleDisk []) = [("Tools", "C:/Tools/util.ahk")]) ∧
    discoveries (scanForScripts Char.toLower mixedDisk ["C:/Tools/a.ahk"]) =
      [("Tools", "C:/Tools/B.AHK"), ("Sub", "C:/Tools/Sub/c.ahk")] := by
  refine ⟨fun fold fs knownPaths => discoveries_scanForScripts fold fs knownPaths,
    fileName_path, ?_, by decide⟩
  intro fold
  rw [discoveries_scanForScripts]
  have h1 : isExcluded fold "C:/Tools" = false := by
    simp only [isExcluded, skipFolders, List.any_cons, List.any_nil, Bool.or_false,
      Bool.or_eq_false_iff]
    refine ⟨?_, ?_, ?_, ?_, ?_, ?_, ?_⟩ <;>
      exact startsWith_of_shorter fold _ _ (by decide)
  have h2 : isExcluded fold "C:/Windows" = true := by
    simp only [isExcluded, skipFolders, List.any_cons, Bool.or_eq_true]
    exact Or.inl (startsWith_append fold "C:/Windows" "")
  have h3 : isExcluded fold "C:/Windows/System" = true := by
    simp only [isExcluded, skipFolders, List.any_cons, Bool.or_eq_true]
    exact Or.inl (startsWith_append fold "C:/Windows" "/System")
  have h4 : endsWith fold "util.ahk" ".ahk" = true := endsWith_append fold "util" ".ahk"
  have h5 : folderLabel "C:/Tools" = "Tools" := by decide
  have h6 : ("C:/Tools" ++ "/" ++ "util.ahk" : QString) = "C:/Tools/util.ahk" := by decide
  have h7 : exampleDisk.files "C:/Tools" = ["util.ahk"] := by decide
  simp [expectedDiscoveries, exampleDisk.eq_1, List.filter_cons, h1, h2, h3, entryList, h4, h5, h6,
    h7]

/-- Claim C2, on the path `C:/Tools`, whose name holds no separator, so the
label is `Tools`, and on the disk with files that are no scripts: `notes.txt`,
`ahk` and `x.ahk.bak` are not reported, nor the known `a.ahk`, nor the script
of the excluded `C:/windows/x`. -/
theorem discoveries_exact_witness :
    fileName ("C:" ++ "/" ++ "Tools") = "Tools" ∧
      discoveries (scanForScripts Char.toLower mixedDisk ["C:/Tools/a.ahk"]) =
        [("Tools", "C:/Tools/B.AHK"), ("Sub", "C:/Tools/Sub/c.ahk")] :=
  ⟨discoveries_exact.2.1 "C:" "Tools" (by decide) (by decide), discoveries_exact.2.2.2⟩

/-- Claim C7.  No discovery event of a scan carries a path that is a member of
`existingPaths`; with `existingPaths` as `startScan` sets it, no event carries
the path of an entry that is in the tree when the scan starts. -/
theorem known_paths_not_rediscovered :
    (∀ (fold : Char → Char) (fs : FileSystem) (knownPaths : List QString),
      ∀ ev ∈ discoveries (scanForScripts fold fs knownPaths), ev.2 ∉ knownPaths) ∧
    (∀ (fold : Char → Char) (fs : FileSystem) (w : MainWindow),
      ∀ ev ∈ discoveries (scanForScripts fold fs (startScan w).existingPaths),
        ev.2 ∉ entryPaths w.scriptTree) := by
  have key : ∀ (fold : Char → Char) (fs : FileSystem) (knownPaths : List QString),
      ∀ ev ∈ discoveries (scanForScripts fold fs knownPaths), ev.2 ∉ knownPaths := by
    intro fold fs knownPaths ev hev
    rw [discoveries_scanForScripts, mem_expectedDiscoveries] at hev
    obtain ⟨d, _, _, f, _, hk, rfl⟩ := hev
    simpa using hk
  exact ⟨key, fun fold fs w ev hev => key fold fs _ ev hev⟩

/-- Claim C7, on the disk with two scripts of which `a.ahk` is known: the one
event is for `B.AHK`, whose path is not known. -/
theorem known_paths_not_rediscovered_witness :
    discoveries (scanForScripts Char.toLower toolsDisk ["C:/Tools/a.ahk"]) =
        [("Tools", "C:/Tools/B.AHK")] ∧
      ("Tools", "C:/Tools/B.AHK").2 ∉ ["C:/Tools/a.ahk"] :=
  ⟨by decide,
    known_paths_not_rediscovered.1 Char.toLower toolsDisk ["C:/Tools/a.ahk"]
      ("Tools", "C:/Tools/B.AHK") (by decide)⟩

/-- Claim C6.  When the number of enumerated directories that are not excluded
fits the `int` counters, the progress events of a scan are `(1, n)`, `(2, n)`,
up to `(n, n)`, with `n` that number: the completed counts are strictly
increasing, every event carries the total `n`, and the last event has its
completed count equal to the total. -/
theorem progress_events_increasing (fold : Char → Char) (fs : FileSystem)
    (knownPaths : List QString)
    (hsize : (fs.subdirs.filter (fun d => !isExcluded fold d)).length < 2147483648) :
    progressEvents (scanForScripts fold fs knownPaths) =
        (List.range (fs.subdirs.filter (fun d => !isExcluded fold d)).length).map
          (fun (i : Nat) =>
            ((i : Int) + 1, ((fs.subdirs.filter (fun d => !isExcluded fold d)).length : Int))) ∧
      ((progressEvents (scanForScripts fold fs knownPaths)).map Prod.fst).Pairwise
        (fun a b => a < b) ∧
      (∀ ev ∈ progressEvents (scanForScripts fold fs knownPaths),
        ev.2 = ((fs.subdirs.filter (fun d => !isExcluded fold d)).length : Int)) ∧
      (∀ ev, (progressEvents (scanForScripts fold fs knownPaths)).getLast? = some ev →
        ev.1 = ev.2) := by
  rw [← collectDirs_eq_filter] at hsize ⊢
  rw [progressEvents_scanForScripts fold fs knownPaths hsize]
  generalize (collectDirs fold fs.subdirs).length = n
  refine ⟨rfl, ?_, ?_, ?_⟩
  · rw [List.map_map, List.pairwise_map]
    exact (List.pairwise_lt_range n).imp (fun h => by simpa using h)
  · intro ev hev
    obtain ⟨i, _, rfl⟩ := List.mem_map.mp hev
    rfl
  · intro ev hev
    cases n with
    | zero => simp at hev
    | succ m =>
      rw [List.range_succ, List.map_append, List.map_singleton, List.getLast?_concat] at hev
      cases hev
      simp

/-- Claim C6, on the example disk, where one directory is not excluded: the
one progress event is `(1, 1)`. -/
theorem progress_events_increasing_witness :
    progressEvents (scanForScripts Char.toLower exampleDisk []) = [(1, 1)] ∧
      ∀ ev, (progressEvents (scanForScripts Char.toLower exampleDisk [])).getLast? = some ev →
        ev.1 = ev.2 :=
  ⟨by decide, (progress_events_increasing Char.toLower exampleDisk [] (by decide)).2.2.2⟩

/-! ## Lemmas on the tree and the cache -/

theorem entries_addToFolder (folder : QString) (item : ScriptItem) (tree : List FolderItem) :
    (entries (addToFolder folder item tree)).Perm (entries tree ++ [(folder, item.data)]) := by
  induction tree with
  | nil => simp [addToFolder, entries]
  | cons top rest ih =>
    by_cases h : top.text0 = folder
    · simp only [addToFolder, h, if_true, entries, List.map_append, List.map_cons, List.map_nil,
        List.append_assoc]
      exact List.Perm.append_left _ List.perm_append_comm
    · simp only [addToFolder, h, if_false, entries, List.append_assoc]
      exact List.Perm.append_left _ ih

theorem entries_handleScriptFound (folder scriptPath : QString) (w : MainWindow) :
    (entries (handleScriptFound folder scriptPath w).scriptTree).Perm
      (entries w.scriptTree ++ [(folder, scriptPath)]) := by
  simpa [handleScriptFound, setItemStopped] using
    entries_addToFolder folder
      (setItemStopped
        { ptr := w.nextPtr, text0 := fileName scriptPath, text1 := "Not Running",
          icon := Icon.fileIcon, background := "", data := scriptPath })
      w.scriptTree

theorem entries_foldl_loadElement (arr : List QJsonValue) (w : MainWindow) :
    (entries (arr.foldl loadElement w).scriptTree).Perm
      (entries w.scriptTree ++ arr.map recordOf) := by
  induction arr generalizing w with
  | nil => simp
  | cons val rest ih =>
    simp only [List.foldl_cons, List.map_cons]
    refine (ih (loadElement w val)).trans ?_
    have h := entries_handleScriptFound (member val.toObject "folder").toQString
      (member val.toObject "path").toQString w
    have h2 := h.append_right (rest.map recordOf)
    simpa [loadElement, recordOf] using h2

theorem entries_foldl_deliver (sigs : List Signal) (w : MainWindow) :
    (entries (sigs.foldl deliver w).scriptTree).Perm
      (entries w.scriptTree ++ discoveries sigs) := by
  induction sigs generalizing w with
  | nil => simp [discoveries]
  | cons sig rest ih =>
    cases sig with
    | scriptFound folder scriptPath =>
      simp only [List.foldl_cons, deliver, discoveries]
      refine (ih _).trans ?_
      have h := (entries_handleScriptFound folder scriptPath w).append_right (discoveries rest)
      simpa using h
    | progressUpdate current total =>
      simpa only [List.foldl_cons, deliver, discoveries] using ih w

theorem recordOf_cacheRecord (folder path : QString) :
    recordOf (cacheRecord folder path) = (folder, path) := by
  simp [recordOf, cacheRecord, QJsonValue.toObject, member, List.lookup, QJsonValue.toQString]

theorem map_recordOf_saveChildren (folderText : QString) (items : List ScriptItem) :
    (saveChildren folderText items).map recordOf = items.map (fun c => (folderText, c.data)) := by
  induction items with
  | nil => rfl
  | cons c rest ih =>
    simp only [saveChildren, List.map_cons, ih]
    rw [show QJsonValue.object
        [("folder", QJsonValue.string folderText), ("path", QJsonValue.string c.data)]
        = cacheRecord folderText c.data from rfl, recordOf_cacheRecord]

theorem map_recordOf_saveFolders (tree : List FolderItem) :
    (saveFolders tree).map recordOf = entries tree := by
  induction tree with
  | nil => rfl
  | cons top rest ih =>
    simp only [saveFolders, List.map_append, map_recordOf_saveChildren, ih, entries]

theorem entries_loadCache_array (arr : List QJsonValue) (w : MainWindow) :
    (entries (loadCache true (some (QJsonDocument.array arr)) w).scriptTree).Perm
      (arr.map recordOf) := by
  have h := entries_foldl_loadElement arr { w with scriptTree := [] }
  simpa [loadCache, entries] using h

theorem loadCache_of_cannot_open (file : CacheFile) (w : MainWindow) :
    loadCache false file w = w := by
  cases file <;> simp [loadCache]

theorem loadCache_of_not_array (canOpen : Bool) (file : CacheFile) (w : MainWindow)
    (h : ∀ arr, file ≠ some (QJsonDocument.array arr)) : loadCache canOpen file w = w := by
  cases file with
  | none => rfl
  | some doc =>
    cases doc with
    | array arr => exact absurd rfl (h arr)
    | null => cases canOpen <;> simp [loadCache]
    | object members => cases canOpen <;> simp [loadCache]

theorem entries_filter_sublist (q : ScriptItem → Bool) (tree : List FolderItem) :
    (entries (tree.map (fun top => { top with children := top.children.filter q }))).Sublist
      (entries tree) := by
  induction tree with
  | nil => exact List.Sublist.refl _
  | cons top rest ih =>
    simp only [List.map_cons, entries]
    exact List.Sublist.append ((List.filter_sublist _).map _) ih

theorem nodup_expected_paths (fold : Char → Char) (fs : FileSystem) (known : List QString)
    (hwf : fs.WellFormed) : ((expectedDiscoveries fold fs known).map Prod.snd).Nodup := by
  obtain ⟨hdirs, hfiles⟩ := hwf
  simp only [expectedDiscoveries, List.map_flatMap, List.map_map]
  rw [List.nodup_flatMap]
  constructor
  · intro d hd
    have hd2 : d ∈ fs.subdirs := (List.mem_filter.mp hd).1
    have hnd : ((entryList fold fs d).filter
        (fun f => !known.contains (d ++ "/" ++ f))).Nodup :=
      ((hfiles d hd2).1.filter _).filter _
    refine List.Nodup.map_on ?_ hnd
    intro f hf g hg hfg
    have hf2 := (hfiles d hd2).2 f (mem_entryList (List.mem_filter.mp hf).1)
    have hg2 := (hfiles d hd2).2 g (mem_entryList (List.mem_filter.mp hg).1)
    exact (path_unique hfg hf2 hg2).2
  · refine List.Pairwise.imp_of_mem ?_ (hdirs.filter _)
    intro a b ha hb hab
    have ha2 : a ∈ fs.subdirs := (List.mem_filter.mp ha).1
    have hb2 : b ∈ fs.subdirs := (List.mem_filter.mp hb).1
    simp only [Function.onFun]
    rw [List.disjoint_left]
    intro x hxa hxb
    obtain ⟨f, hf, rfl⟩ := List.mem_map.mp hxa
    obtain ⟨g, hg, hgf⟩ := List.mem_map.mp hxb
    have hf2 := (hfiles a ha2).2 f (mem_entryList (List.mem_filter.mp hf).1)
    have hg2 := (hfiles b hb2).2 g (mem_entryList (List.mem_filter.mp hg).1)
    exact hab (path_unique hgf hg2 hf2).1.symm

theorem entryPaths_runScan (fold : Char → Char) (fs : FileSystem) (w : MainWindow) :
    (entryPaths (runScan fold fs w).scriptTree).Perm
      (entryPaths w.scriptTree ++
        (expectedDiscoveries fold fs (entryPaths w.scriptTree)).map Prod.snd) := by
  have h := entries_foldl_deliver
    (scanForScripts fold fs (startScan w).existingPaths) (startScan w)
  have h2 := h.map Prod.snd
  simpa [runScan, entryPaths, startScan, discoveries_scanForScripts] using h2

theorem nodup_entryPaths_runScan (fold : Char → Char) (fs : FileSystem) (w : MainWindow)
    (hwf : fs.WellFormed) (hw : (entryPaths w.scriptTree).Nodup) :
    (entryPaths (runScan fold fs w).scriptTree).Nodup := by
  rw [(entryPaths_runScan fold fs w).nodup_iff, List.nodup_append]
  refine ⟨hw, nodup_expected_paths fold fs _ hwf, ?_⟩
  rw [List.disjoint_left]
  intro x hx hx2
  obtain ⟨ev, hev, rfl⟩ := List.mem_map.mp hx2
  obtain ⟨d, _, _, f, _, hk, rfl⟩ := mem_expectedDiscoveries.mp hev
  simp only [List.contains_eq_any_beq, List.any_eq_false, beq_iff_eq] at hk
  exact hk _ hx rfl

/-! ## The tree and the cache: claims -/

/-- Claim C3.  Round trip of the cache: for every window `w`, when both files
open, `saveCache` followed by `loadCache` (into any window) yields a tree whose
`(folder, path)` pairs are those of the tree of `w`: the same pairs with the
same multiplicities, hence the same set. -/
theorem cache_round_trip (w w0 : MainWindow) (file : CacheFile) :
    (entries (loadCache true (saveCache true w file) w0).scriptTree).Perm
        (entries w.scriptTree) ∧
      ∀ pair, pair ∈ entries (loadCache true (saveCache true w file) w0).scriptTree ↔
        pair ∈ entries w.scriptTree := by
  have h : (entries (loadCache true (saveCache true w file) w0).scriptTree).Perm
      (entries w.scriptTree) := by
    have h1 := entries_loadCache_array (saveFolders w.scriptTree) w0
    rw [map_recordOf_saveFolders] at h1
    simpa [saveCache] using h1
  exact ⟨h, fun pair => h.mem_iff⟩

/-- Claim C8, as stated, fails: the cache text `[1]` is not a well-formed list
of records, and `loadCache` on an empty tree creates a script entry from it. -/
theorem malformed_element_yields_entry :
    ¬ ∀ (canOpen : Bool) (file : CacheFile), isRecordList file = false →
      entries (loadCache canOpen file MainWindow.empty).scriptTree = [] := by
  intro h
  have h2 := h true (some (QJsonDocument.array [QJsonValue.number 1])) rfl
  revert h2
  decide

/-- Claim C8, amended.  `loadCache` on a cache file that is missing, cannot be
opened, or does not parse to an array leaves the window as it is, so an empty
tree stays empty; on an array it rebuilds the tree with one entry per element,
the entry `recordOf` reads from it, where a missing or non-string `folder` or
`path` reads as the empty text. -/
theorem loadCache_entries (w : MainWindow) :
    (∀ file, loadCache false file w = w) ∧
      (∀ (canOpen : Bool) (file : CacheFile),
        (∀ arr, file ≠ some (QJsonDocument.array arr)) → loadCache canOpen file w = w) ∧
      (∀ arr : List QJsonValue,
        (entries (loadCache true (some (QJsonDocument.array arr)) w).scriptTree).Perm
            (arr.map recordOf) ∧
          (entries (loadCache true (some (QJsonDocument.array arr)) w).scriptTree).length
            = arr.length) := by
  refine ⟨fun file => loadCache_of_cannot_open file w,
    fun canOpen file h => loadCache_of_not_array canOpen file w h, fun arr => ?_⟩
  have h := entries_loadCache_array arr w
  exact ⟨h, by simpa using h.length_eq⟩

/-- Claim C8, amended, on examples: a missing cache and the unparsable text
leave the empty window as it is. -/
theorem loadCache_entries_witness :
    loadCache true none MainWindow.empty = MainWindow.empty ∧
      loadCache true (some QJsonDocument.null) MainWindow.empty = MainWindow.empty :=
  ⟨(loadCache_entries MainWindow.empty).2.1 true none (fun _ h => Option.noConfusion h),
    (loadCache_entries MainWindow.empty).2.1 true (some QJsonDocument.null)
      (fun _ h => QJsonDocument.noConfusion (Option.some.inj h))⟩

/-- Claim C9, as stated, fails: a cache holding the same record twice is loaded
into two entries with the same path. -/
theorem duplicate_cache_record_breaks_uniqueness :
    ¬ ∀ w, Reachable Char.toLower (fun _ => True) w → (entryPaths w.scriptTree).Nodup := by
  intro h
  have h2 := h _ (Reachable.load MainWindow.empty true
    (some (QJsonDocument.array [cacheRecord "A" "C:/A/s.ahk", cacheRecord "A" "C:/A/s.ahk"]))
    (Reachable.init _ rfl) trivial)
  revert h2
  decide

/-- Claim C9, amended.  In every state reached from an empty tree by
`loadCache` on a cache whose records have pairwise distinct paths, by whole
scans of well-formed file systems with the known paths taken from the tree,
and by deleting entries, no two script entries have the same path. -/
theorem entry_paths_unique (fold : Char → Char) (w : MainWindow)
    (h : Reachable fold (fun file => (cachePaths file).Nodup) w) :
    (entryPaths w.scriptTree).Nodup := by
  induction h with
  | init w hw => simp [hw, entryPaths, entries]
  | load w canOpen file _ hok ih =>
    cases canOpen with
    | false => rw [loadCache_of_cannot_open]; exact ih
    | true =>
      by_cases harr : ∃ arr, file = some (QJsonDocument.array arr)
      · obtain ⟨arr, rfl⟩ := harr
        have hp := (entries_loadCache_array arr w).map Prod.snd
        rw [entryPaths, hp.nodup_iff]
        simpa [cachePaths] using hok
      · rw [loadCache_of_not_array true file w (fun arr h => harr ⟨arr, h⟩)]
        exact ih
  | scan w fs _ hwf ih => exact nodup_entryPaths_runScan fold fs w hwf ih
  | delete w ptr _ ih =>
    exact ((entries_filter_sublist _ w.scriptTree).map Prod.snd).nodup ih

/-- Claim C9, amended, on the example disk: after a scan from the empty window
the entry paths are pairwise distinct. -/
theorem entry_paths_unique_witness :
    (entryPaths (runScan Char.toLower exampleDisk MainWindow.empty).scriptTree).Nodup :=
  entry_paths_unique Char.toLower _
    (Reachable.scan MainWindow.empty exampleDisk (Reachable.init _ rfl)
      (by unfold FileSystem.WellFormed; decide))

/-! ## Lemmas on the process table -/

theorem QHash.contains_eq_false_iff (h : QHash) (k : QString) :
    h.contains k = false ↔ h.handles k = [] := by
  simp [QHash.contains, QHash.handles, List.filter_eq_nil_iff]

theorem QHash.handles_insert (h : QHash) (k : QString) (v : Nat) :
    (h.insert k v).handles k = [v] := by
  simp [QHash.insert, QHash.handles, QHash.remove, List.filter_filter, List.filter_cons]

theorem QHash.contains_insert (h : QHash) (k : QString) (v : Nat) :
    (h.insert k v).contains k = true := by
  simp [QHash.insert, QHash.contains]

theorem findChild_map (path : QString) (g : ScriptItem → ScriptItem)
    (hg : ∀ c, (g c).data = c.data) (children : List ScriptItem) :
    findChild path (children.map g) = (findChild path children).map g := by
  induction children with
  | nil => rfl
  | cons c rest ih =>
    by_cases h : c.data = path
    · simp [findChild, hg, h]
    · simp [findChild, hg, h, ih]

theorem findScriptItem_updateItem (path : QString) (ptr : Nat) (f : ScriptItem → ScriptItem)
    (hf : ∀ c, (f c).data = c.data) (tree : List FolderItem) :
    findScriptItem (updateItem ptr f tree) path =
      (findScriptItem tree path).map (fun c => if c.ptr = ptr then f c else c) := by
  have hg : ∀ c : ScriptItem, (if c.ptr = ptr then f c else c).data = c.data := by
    intro c
    by_cases h : c.ptr = ptr <;> simp [h, hf]
  induction tree with
  | nil => rfl
  | cons top rest ih =>
    have h1 := findChild_map path (fun c => if c.ptr = ptr then f c else c) hg top.children
    simp only [updateItem, List.map_cons] at ih ⊢
    simp only [findScriptItem, h1]
    cases findChild path top.children with
    | none => simpa using ih
    | some c => simp

theorem runScript_eq (waitForStarted : Bool) (path : QString) (w : MainWindow) :
    runScript waitForStarted (some path) w = runScriptForPath waitForStarted path w := rfl

theorem runScriptForPath_started {first : Bool} {path : QString} {w : MainWindow}
    (h : (runScriptForPath first path w).2 = StartExit.started) :
    ∃ item, findScriptItem w.scriptTree path = some item ∧
      w.runningScripts.contains path = false ∧ first = true := by
  unfold runScriptForPath at h
  cases hitem : findScriptItem w.scriptTree path with
  | none => simp [hitem] at h
  | some item =>
    cases hc : w.runningScripts.contains path with
    | true => simp [hitem, hc] at h
    | false =>
      cases first with
      | false => simp [hitem, hc] at h
      | true => exact ⟨item, rfl, rfl, rfl⟩

/-! ## The process table: claims -/

/-- Claim C4.  When a start call for `path` launches its process (it ends by
the last return, which needs a tree item for `path`, no handle under `path`
and a process that starts), exactly one handle is registered under `path`, the
process object made by that call, and a second start call right after it, by
the menu or by the button, ends at the test `runningScripts.contains(path)`
and leaves the whole window as it is: no process object is made, the handle
table and every status are unchanged. -/
theorem start_twice (w : MainWindow) (path : QString) (first second : Bool)
    (hstart : (runScriptForPath first path w).2 = StartExit.started) :
    runScript first (some path) w = runScriptForPath first path w ∧
      (runScriptForPath first path w).1.runningScripts.handles path = [w.nextPtr] ∧
      (∃ item, (runScriptForPath first path w).1.processes = w.processes ++
        [{ ptr := w.nextPtr, path := path, item := item, running := true, killed := false,
           deleteLater := false }]) ∧
      runScriptForPath second path (runScriptForPath first path w).1 =
        ((runScriptForPath first path w).1, StartExit.alreadyRunning) ∧
      runScript second (some path) (runScriptForPath first path w).1 =
        ((runScriptForPath first path w).1, StartExit.alreadyRunning) := by
  obtain ⟨item, hitem, hc, rfl⟩ := runScriptForPath_started hstart
  have h1 : (runScriptForPath true path w).1 =
      { w with
        scriptTree := updateItem item.ptr setItemRunning w.scriptTree,
        runningScripts := w.runningScripts.insert path w.nextPtr,
        processes := w.processes ++
          [{ ptr := w.nextPtr, path := path, item := item.ptr, running := true, killed := false,
             deleteLater := false }],
        nextPtr := w.nextPtr + 1 } := by
    simp [runScriptForPath, hitem, hc]
  have h2 : runScriptForPath second path (runScriptForPath true path w).1 =
      ((runScriptForPath true path w).1, StartExit.alreadyRunning) := by
    rw [h1]
    simp only [runScriptForPath]
    rw [findScriptItem_updateItem path item.ptr setItemRunning (fun _ => rfl), hitem]
    simp [QHash.contains_insert]
  refine ⟨rfl, ?_, ⟨item.ptr, ?_⟩, h2, h2⟩
  · rw [h1]
    exact QHash.handles_insert _ _ _
  · rw [h1]

/-- Claim C4, on the example window: two start calls for `C:/Tools/util.ahk`. -/
theorem start_twice_witness :
    (runScriptForPath true "C:/Tools/util.ahk" exampleWindow).2 = StartExit.started ∧
      (runScriptForPath true "C:/Tools/util.ahk" exampleWindow).1.runningScripts.handles
        "C:/Tools/util.ahk" = [exampleWindow.nextPtr] ∧
      runScriptForPath true "C:/Tools/util.ahk"
          (runScriptForPath true "C:/Tools/util.ahk" exampleWindow).1 =
        ((runScriptForPath true "C:/Tools/util.ahk" exampleWindow).1,
          StartExit.alreadyRunning) :=
  ⟨by decide,
    (start_twice exampleWindow "C:/Tools/util.ahk" true true (by decide)).2.1,
    (start_twice exampleWindow "C:/Tools/util.ahk" true true (by decide)).2.2.2.1⟩

/-- Claim C10.  When no handle is registered under `path`, a stop call for
`path`, by the menu or by the button, leaves the whole window as it is (the
handle table, every status, every process object) and ends without reaching
the call of `kill`: `stopScriptForPath` at its first test, `stopScript` at
the test for the tree item or past the skipped `if`. -/
theorem stop_without_handle (w : MainWindow) (path : QString)
    (h : w.runningScripts.handles path = []) :
    stopScriptForPath path w = (w, StopExit.notRunning) ∧
      stopScript (some path) w =
        (w, if (findScriptItem w.scriptTree path).isSome then StopExit.notRunning
            else StopExit.noItem) ∧
      (stopScript (some path) w).2 ≠ StopExit.killed := by
  have hc : w.runningScripts.contains path = false :=
    (QHash.contains_eq_false_iff _ _).mpr h
  have h2 : stopScript (some path) w =
      (w, if (findScriptItem w.scriptTree path).isSome then StopExit.notRunning
          else StopExit.noItem) := by
    cases hitem : findScriptItem w.scriptTree path with
    | none => simp [stopScript, hitem]
    | some item => simp [stopScript, hitem, hc]
  refine ⟨by simp [stopScriptForPath, hc], h2, ?_⟩
  rw [h2]
  cases (findScriptItem w.scriptTree path).isSome <;> simp

/-- Claim C10, on the example window, where nothing runs. -/
theorem stop_without_handle_witness :
    exampleWindow.runningScripts.handles "C:/Tools/util.ahk" = [] ∧
      stopScriptForPath "C:/Tools/util.ahk" exampleWindow =
        (exampleWindow, StopExit.notRunning) :=
  ⟨by decide, (stop_without_handle exampleWindow "C:/Tools/util.ahk" (by decide)).1⟩

/-- Claim C5, on the code: start, stop and start again for the one path of
the window after the scan, then the `finished` signal of the first process
object.  Before the signal the second process object is registered and the item shows
`Running`; the handler of the first object then removes the handle of the
second and sets the item to `Not Running`, while the second process runs. -/
theorem stale_finished_handler_drops_new_handle :
    (run exampleWindow
        [Action.start true "C:/Tools/util.ahk", Action.stop "C:/Tools/util.ahk",
          Action.start true "C:/Tools/util.ahk"]).map (observe "C:/Tools/util.ahk") =
      some ([2], some "Running", [(1, true), (2, true)]) ∧
    (run exampleWindow
        [Action.start true "C:/Tools/util.ahk", Action.stop "C:/Tools/util.ahk",
          Action.start true "C:/Tools/util.ahk", Action.finished 1]).map
        (observe "C:/Tools/util.ahk") =
      some ([], some "Not Running", [(1, false), (2, true)]) := by
  decide

end AhkManager
